import Mathlib

/-!
Verification of the `decider` engine (src/src/lib.rs).

The code is a generic memoized game-tree evaluator:
  * `cache` (lib.rs lines 49-74): a memoizing fixed-point combinator;
  * `choose` (lib.rs lines 78-119): builds the blended-search evaluator
    (the inner `eval_helper`, lines 83-97, and the `cache`d match on the
    oracle's `Evaluation`, lines 99-113) and returns the selection
    closure (lines 114-119) that maps every legal decision to the score
    of its successor and takes `max_by` with `partial_cmp(..).unwrap()`.

Scores are Rust `f64`.  We model `f64` values as exact rationals
extended with the three IEEE special values `+inf`, `-inf`, `NaN`
(type `F` below).  All arithmetic the engine performs (addition,
multiplication, `f64::max`, `f64::min`, `partial_cmp`) is modelled with
the exact IEEE special-value rules; finite arithmetic is exact rational
arithmetic (the claims under study evaluate these operations only at
exactly representable values, where `f64` arithmetic is also exact;
signed zero is collapsed to a single zero, which `==`-equality and
`partial_cmp` cannot distinguish anyway).
-/

namespace Decider

/-- Model of an `f64` score: an exact finite value or one of the IEEE
special values. -/
inductive F where
  | fin (q : ℚ)
  | pinf
  | ninf
  | nan
deriving DecidableEq

/-- IEEE `f64` addition on the model: NaN propagates, `+inf + -inf = NaN`,
an infinity absorbs finite values, finite addition is exact. -/
def F.add : F → F → F
  | .nan, _ => .nan
  | _, .nan => .nan
  | .pinf, .ninf => .nan
  | .ninf, .pinf => .nan
  | .pinf, _ => .pinf
  | _, .pinf => .pinf
  | .ninf, _ => .ninf
  | _, .ninf => .ninf
  | .fin a, .fin b => .fin (a + b)

/-- IEEE `f64` multiplication on the model: NaN propagates,
`0 * ±inf = NaN`, otherwise infinities follow the sign rules. -/
def F.mul : F → F → F
  | .nan, _ => .nan
  | _, .nan => .nan
  | .fin a, .fin b => .fin (a * b)
  | .fin a, .pinf => if 0 < a then .pinf else if a < 0 then .ninf else .nan
  | .fin a, .ninf => if 0 < a then .ninf else if a < 0 then .pinf else .nan
  | .pinf, .fin b => if 0 < b then .pinf else if b < 0 then .ninf else .nan
  | .ninf, .fin b => if 0 < b then .ninf else if b < 0 then .pinf else .nan
  | .pinf, .pinf => .pinf
  | .pinf, .ninf => .ninf
  | .ninf, .pinf => .ninf
  | .ninf, .ninf => .pinf

/-- Rust `f64::max`: ignores NaN (if one argument is NaN the other is
returned), otherwise the larger value. -/
def F.fmax : F → F → F
  | .nan, b => b
  | a, .nan => a
  | .pinf, _ => .pinf
  | _, .pinf => .pinf
  | .ninf, b => b
  | a, .ninf => a
  | .fin a, .fin b => .fin (max a b)

/-- Rust `f64::min`: ignores NaN, otherwise the smaller value. -/
def F.fmin : F → F → F
  | .nan, b => b
  | a, .nan => a
  | .ninf, _ => .ninf
  | _, .ninf => .ninf
  | .pinf, b => b
  | a, .pinf => a
  | .fin a, .fin b => .fin (min a b)

/-- Rust `f64::partial_cmp`: `none` iff either operand is NaN, otherwise
the total order `-inf < finite < +inf`. -/
def F.pcmp : F → F → Option Ordering
  | .nan, _ => none
  | _, .nan => none
  | .pinf, .pinf => some .eq
  | .pinf, _ => some .gt
  | _, .pinf => some .lt
  | .ninf, .ninf => some .eq
  | .ninf, _ => some .lt
  | _, .ninf => some .gt
  | .fin a, .fin b =>
      some (if a < b then .lt else if a = b then .eq else .gt)

/-- Boolean `a <= b` derived from `pcmp` (false when incomparable). -/
def F.ble (a b : F) : Bool :=
  match a.pcmp b with
  | some .lt => true
  | some .eq => true
  | _ => false

/-- Boolean strict `a < b` derived from `pcmp`. -/
def F.blt (a b : F) : Bool :=
  match a.pcmp b with
  | some .lt => true
  | _ => false

/-- The player mode of a non-terminal node (lib.rs lines 18-22). -/
inductive Mode where
  | Maximize
  | Minimize
deriving DecidableEq

/-- The oracle's verdict on a state (lib.rs lines 24-29). -/
inductive Evaluation where
  | Mode (m : Decider.Mode)
  | ModeWithValue (m : Decider.Mode) (v : F)
  | Value (v : F)
deriving DecidableEq

/-- The fold seed used by `choose` for a mode: `f64::NEG_INFINITY` for
`Maximize`, `f64::INFINITY` for `Minimize` (lib.rs lines 101-112). -/
def Mode.seed : Mode → F
  | .Maximize => F.ninf
  | .Minimize => F.pinf

/-- The fold function used by `choose` for a mode: `f64::max` for
`Maximize`, `f64::min` for `Minimize` (lib.rs lines 101-112). -/
def Mode.fold : Mode → F → F → F
  | .Maximize => F.fmax
  | .Minimize => F.fmin

/-- One decision process: the `State` trait (`decisions`, `choose`,
lib.rs lines 12-16) bundled with an evaluation oracle (`Eval`,
lib.rs lines 31-42).  `decisions` is a finite sequence, modelled as a
list in enumeration order. -/
structure Model (S D : Type) where
  decisions : S → List D
  choose : S → D → S
  evaluate : S → Evaluation

variable {S D : Type}

/-- Sequence a fallible map over a list (the `Option` layer is fuel
exhaustion of the recursive scoring; the Rust code cannot fail here). -/
def mapOpt (f : α → Option β) : List α → Option (List β)
  | [] => some []
  | a :: l =>
    match f a with
    | none => none
    | some b => (mapOpt f l).map (fun bs => b :: bs)

instance {ε α : Type} [DecidableEq ε] [DecidableEq α] :
    DecidableEq (Except ε α) := fun a b =>
  match a, b with
  | .error x, .error y =>
      if h : x = y then .isTrue (by rw [h])
      else .isFalse (fun hh => h (by cases hh; rfl))
  | .error _, .ok _ => .isFalse (fun hh => by cases hh)
  | .ok _, .error _ => .isFalse (fun hh => by cases hh)
  | .ok x, .ok y =>
      if h : x = y then .isTrue (by rw [h])
      else .isFalse (fun hh => h (by cases hh; rfl))

/-- `eval_helper` (lib.rs lines 83-97) after the child scores have been
produced: one left fold building the pair `(minmax, sum)` starting from
`(fold_value, 0.0)`, then the blend
`ratio * minmax + (1.0 - ratio) * expecto`. -/
def evalHelper (childScores : List F) (foldValue : F) (fold : F → F → F)
    (ratio : ℚ) : F :=
  let p := childScores.foldl (fun acc v => (fold acc.1 v, acc.2.add v))
    (foldValue, F.fin 0)
  ((F.fin ratio).mul p.1).add ((F.fin (1 - ratio)).mul p.2)

/-- The blended-search score of a state: the recursive function wrapped
by `cache` in `choose` (lib.rs lines 99-113), written with explicit
fuel because the code's termination is a caller obligation (spec §3:
every path must reach a `Value` in finitely many steps).  Child scores
are the scores of `M.choose s d` for each legal decision `d`, in
enumeration order. -/
def score (M : Model S D) (ratio : ℚ) : Nat → S → Option F
  | 0, _ => none
  | n + 1, s =>
    match M.evaluate s with
    | .Value v => some v
    | .Mode .Maximize =>
        (mapOpt (score M ratio n) ((M.decisions s).map (M.choose s))).map
          (fun vs => evalHelper vs F.ninf F.fmax ratio)
    | .Mode .Minimize =>
        (mapOpt (score M ratio n) ((M.decisions s).map (M.choose s))).map
          (fun vs => evalHelper vs F.pinf F.fmin ratio)
    | .ModeWithValue .Maximize v =>
        (mapOpt (score M ratio n) ((M.decisions s).map (M.choose s))).map
          (fun vs => (evalHelper vs F.ninf F.fmax ratio).add v)
    | .ModeWithValue .Minimize v =>
        (mapOpt (score M ratio n) ((M.decisions s).map (M.choose s))).map
          (fun vs => (evalHelper vs F.pinf F.fmin ratio).add v)

/-- One comparison step of Rust's `Iterator::max_by` with the code's
comparator `a.partial_cmp(b).unwrap()` (lib.rs line 118): `.error ()`
models the `unwrap` panic on incomparable (NaN) scores; on `Less` or
`Equal` the second (later) element is kept, on `Greater` the first. -/
def maxStep (x y : D × F) : Except Unit (D × F) :=
  match x.2.pcmp y.2 with
  | none => .error ()
  | some .gt => .ok x
  | some _ => .ok y

/-- Left-to-right reduction by a fallible binary step, mirroring
`Iterator::reduce` (the core of `Iterator::max_by`); an `.error` from
the step aborts the whole reduction, like a panic. -/
def foldE (f : α → β → Except Unit α) : α → List β → Except Unit α
  | a, [] => .ok a
  | a, b :: l =>
    match f a b with
    | .error e => .error e
    | .ok a' => foldE f a' l

/-- Rust's `Iterator::max_by` over a list of `(decision, score)` pairs:
`none` on an empty iterator, otherwise the left-to-right reduction by
`maxStep` (so ties keep the later element). -/
def maxByCmp : List (D × F) → Except Unit (Option (D × F))
  | [] => .ok none
  | x :: xs => (foldE maxStep x xs).map some

/-- The selection closure returned by `choose` (lib.rs lines 114-119):
pair every legal decision with the blended score of its successor, then
`max_by` with `partial_cmp(..).unwrap()`.  The outer `Option` is fuel
exhaustion of the recursive scoring; the `Except Unit` layer is the
`unwrap` panic on NaN. -/
def select (M : Model S D) (ratio : ℚ) (fuel : Nat) (s : S) :
    Option (Except Unit (Option (D × F))) :=
  (mapOpt (fun d => (score M ratio fuel (M.choose s d)).map (fun v => (d, v)))
      (M.decisions s)).map
    maxByCmp

/-- Modelled from the spec (§8, §4.4): the standard minimax value of a
state -- `Value(v)` leaves score `v`, a `Mode` node folds the minimax
values of its successors with `max` (seed `-inf`) or `min` (seed
`+inf`).  A `ModeWithValue` node additionally adds its offset, matching
the engine's reading of that variant.  This is the spec-side reference
definition for the refinement claim about `ratio = 1.0`, not code of
the repository. -/
def minimaxSpec (M : Model S D) : Nat → S → Option F
  | 0, _ => none
  | n + 1, s =>
    match M.evaluate s with
    | .Value v => some v
    | .Mode m =>
        (mapOpt (minimaxSpec M n) ((M.decisions s).map (M.choose s))).map
          (fun vs => vs.foldl m.fold m.seed)
    | .ModeWithValue m v =>
        (mapOpt (minimaxSpec M n) ((M.decisions s).map (M.choose s))).map
          (fun vs => (vs.foldl m.fold m.seed).add v)

/-!
The memoizing fixed-point combinator `cache` (lib.rs lines 49-74).

The wrapped function `f` interacts with the recursion only through the
`recurse` callback it is handed; we capture such a function as a
computation tree (`Comp`): it either returns an output or requests the
output for another input and continues.  The combinator's inner `rec`
becomes `recC`/`runC`: check the cache, otherwise interpret `f input`
(each `call` re-entering `recC` on the requested input), and insert the
computed output before returning.  Fuel makes the -- possibly
unbounded -- recursion total; `none` is fuel exhaustion.

The state carries the cache (an association list, newest entry first,
as `HashMap::insert` makes the latest write win) plus a ghost log of
the inputs `f` has been invoked on; the log exists only to let theorems
count invocations of the wrapped function (and hence of
`EvaluationOracle.evaluate`, which the blended-search `f` consults
exactly once per invocation) and influences nothing.
-/

/-- A computation that may request recursive results: the shape of the
function wrapped by `cache` (lib.rs lines 49-53). -/
inductive Comp (I O R : Type) where
  | ret (r : R)
  | call (i : I) (k : O → Comp I O R)

/-- Cache plus invocation log of one engine instance. -/
structure St (I O : Type) where
  cache : List (I × O)
  log : List I
deriving DecidableEq

/-- Association-list lookup, newest entry first (`HashMap::get`). -/
def lookupC [DecidableEq I] : List (I × O) → I → Option O
  | [], _ => none
  | (j, o) :: c, i => if i = j then some o else lookupC c i

/-- The keys of the cache. -/
def keysC : List (I × O) → List I :=
  List.map Prod.fst

mutual

/-- The inner `rec` of `cache` (lib.rs lines 57-71): if `i` is a cache
key return the stored output immediately; otherwise log the invocation,
interpret `f i` (recursive requests flow back through `recC`), and
insert the result under `i` before returning it. -/
def recC [DecidableEq I] (f : I → Comp I O O) : Nat → I → St I O →
    Option (O × St I O)
  | 0, _, _ => none
  | n + 1, i, st =>
    match lookupC st.cache i with
    | some o => some (o, st)
    | none =>
      match runC f n (f i) ⟨st.cache, st.log ++ [i]⟩ with
      | some (o, st') => some (o, ⟨(i, o) :: st'.cache, st'.log⟩)
      | none => none

/-- Interpret one computation tree, serving each `call` through `recC`
(the `recurse` callback bound to the same cache, lib.rs line 67). -/
def runC [DecidableEq I] (f : I → Comp I O O) : Nat → Comp I O O →
    St I O → Option (O × St I O)
  | _, .ret o, st => some (o, st)
  | 0, .call _ _, _ => none
  | n + 1, .call i k, st =>
    match recC f n i st with
    | some (o, st') => runC f n (k o) st'
    | none => none

end

/-- A sequence of invocations of the memoized function on one engine
instance (the repeated top-level calls made across `select` calls). -/
def runCalls [DecidableEq I] (f : I → Comp I O O) (fuel : Nat) :
    List I → St I O → Option (St I O)
  | [], st => some st
  | i :: is, st =>
    match recC f fuel i st with
    | some (_, st') => runCalls f fuel is st'
    | none => none

/-- Every recursive request in a computation is on an input of measure
below `b` (the shape the spec's termination obligation gives to the
wrapped function). -/
def CompBelow (μ : I → Nat) (b : Nat) : Comp I O O → Prop
  | .ret _ => True
  | .call j k => μ j < b ∧ ∀ o, CompBelow μ b (k o)

/-- Invariant of an engine state: no input has been handed to the
wrapped function twice, and every logged input is already cached except
possibly the in-flight inputs listed in `A`. -/
def StOK [DecidableEq I] (st : St I O) (A : List I) : Prop :=
  (∀ x, st.log.count x ≤ 1) ∧ ∀ x ∈ st.log, x ∈ keysC st.cache ∨ x ∈ A

/-- The per-mode body of `eval_helper` as a computation tree: request
each successor's score in order, folding `(minmax, sum)` exactly as the
single pass of lib.rs lines 90-95, and finish with `finish` on the
accumulated pair. -/
def foldComp (fold : F → F → F) (finish : F × F → F) :
    List S → F × F → Comp S F F
  | [], acc => .ret (finish acc)
  | c :: cs, acc =>
      .call c (fun v => foldComp fold finish cs (fold acc.1 v, acc.2.add v))

/-- The blend `ratio * minmax + (1.0 - ratio) * expecto`
(lib.rs line 96). -/
def blendFinish (ratio : ℚ) (p : F × F) : F :=
  ((F.fin ratio).mul p.1).add ((F.fin (1 - ratio)).mul p.2)

/-- The function wrapped by `cache` in `choose` (lib.rs lines 99-113),
as a computation tree over successor states. -/
def fBlend (M : Model S D) (ratio : ℚ) (s : S) : Comp S F F :=
  match M.evaluate s with
  | .Value v => .ret v
  | .Mode .Maximize =>
      foldComp F.fmax (blendFinish ratio)
        ((M.decisions s).map (M.choose s)) (F.ninf, F.fin 0)
  | .Mode .Minimize =>
      foldComp F.fmin (blendFinish ratio)
        ((M.decisions s).map (M.choose s)) (F.pinf, F.fin 0)
  | .ModeWithValue .Maximize v =>
      foldComp F.fmax (fun p => (blendFinish ratio p).add v)
        ((M.decisions s).map (M.choose s)) (F.ninf, F.fin 0)
  | .ModeWithValue .Minimize v =>
      foldComp F.fmin (fun p => (blendFinish ratio p).add v)
        ((M.decisions s).map (M.choose s)) (F.pinf, F.fin 0)

/-- Score every successor in enumeration order through the shared
cache, pairing it with its decision (the `map` of lib.rs line 117 with
the stateful memoized `evaluate`). -/
def scoreRun [DecidableEq S] (f : S → Comp S F F) (fuel : Nat) :
    List (D × S) → St S F → Option (List (D × F) × St S F)
  | [], st => some ([], st)
  | (d, s) :: rest, st =>
    match recC f fuel s st with
    | some (v, st') =>
        (scoreRun f fuel rest st').map (fun p => ((d, v) :: p.1, p.2))
    | none => none

/-- The selection closure (lib.rs lines 114-119) over the stateful
memoized evaluator: score all successors through the cache, then
`max_by` with `partial_cmp(..).unwrap()`. -/
def selectC [DecidableEq S] (M : Model S D) (ratio : ℚ) (fuel : Nat)
    (s : S) (st : St S F) :
    Option (Except Unit (Option (D × F)) × St S F) :=
  (scoreRun (fBlend M ratio) fuel
      ((M.decisions s).map (fun d => (d, M.choose s d))) st).map
    (fun p => (maxByCmp p.1, p.2))

/-!
Concrete decision processes used to instantiate the theorems.
-/

/-- A three-state tree: state `0` is a `Maximize` node with successors
`1` (a `Value 5` leaf) and `2` (a `Maximize` node with no decisions). -/
def Mtree : Model Nat Nat where
  decisions := fun s => if s = 0 then [0, 1] else []
  choose := fun s d => if s = 0 then d + 1 else s
  evaluate := fun s =>
    if s = 0 then .Mode .Maximize
    else if s = 1 then .Value (F.fin 5)
    else .Mode .Maximize

/-- Root `0` is a `Maximize` node whose two successors are both
`Value 1` leaves: a perfect tie. -/
def Mtie : Model Nat Nat where
  decisions := fun s => if s = 0 then [0, 1] else []
  choose := fun s d => if s = 0 then d + 1 else s
  evaluate := fun s => if s = 0 then .Mode .Maximize else .Value (F.fin 1)

/-- Root `0` has a single decision, whose successor is a `Value NaN`
leaf. -/
def MnanOne : Model Nat Nat where
  decisions := fun s => if s = 0 then [7] else []
  choose := fun s d => if s = 0 then d else s
  evaluate := fun s => if s = 0 then .Mode .Maximize else .Value F.nan

/-- Root `0` has two decisions; the first successor is a `Value NaN`
leaf, the second a `Value 1` leaf. -/
def MnanTwo : Model Nat Nat where
  decisions := fun s => if s = 0 then [0, 1] else []
  choose := fun s d => if s = 0 then d + 1 else s
  evaluate := fun s =>
    if s = 0 then .Mode .Maximize
    else if s = 1 then .Value F.nan
    else .Value (F.fin 1)

/-- A chain whose root score genuinely depends on the ratio: root `0`
has the single successor `1`, a `Maximize` node over the leaves
`Value 10` and `Value 20`, so the root's score is
`ratio * 20 + (1 - ratio) * 30`. -/
def Mchain : Model Nat Nat where
  decisions := fun s => if s = 0 then [0] else if s = 1 then [0, 1] else []
  choose := fun s d => if s = 0 then 1 else if s = 1 then d + 2 else s
  evaluate := fun s =>
    if s = 2 then .Value (F.fin 10)
    else if s = 3 then .Value (F.fin 20)
    else .Mode .Maximize

/-- Like `Mtree` but the root is evaluated as a terminal `Value 42` by
the oracle. -/
def MvalRoot : Model Nat Nat where
  decisions := fun s => if s = 0 then [0, 1] else []
  choose := fun s d => if s = 0 then d + 1 else s
  evaluate := fun s =>
    if s = 0 then .Value (F.fin 42)
    else if s = 1 then .Value (F.fin 5)
    else .Value (F.fin 9)

/-- The same process as `MvalRoot` except that the oracle evaluates the
root as a `Maximize` node. -/
def MmodeRoot : Model Nat Nat where
  decisions := fun s => if s = 0 then [0, 1] else []
  choose := fun s d => if s = 0 then d + 1 else s
  evaluate := fun s =>
    if s = 0 then .Mode .Maximize
    else if s = 1 then .Value (F.fin 5)
    else .Value (F.fin 9)

/-- A concrete wrapped function with a diamond-shaped call graph:
input `0` requests `1` and `2`, input `1` requests `2`, input `2`
returns directly -- so `2` is reachable along two paths. -/
def fDiamond : Nat → Comp Nat Nat Nat
  | 0 => .call 1 (fun a => .call 2 (fun b => .ret (a + b)))
  | 1 => .call 2 (fun c => .ret (c + 1))
  | _ => .ret 7

/-- Termination measure for `fDiamond`. -/
def muDiamond (i : Nat) : Nat := 2 - i

/-- Termination measure for the three-state trees rooted at `0`. -/
def muRoot (s : Nat) : Nat := 3 - s

/-!
Theorems.
-/

/-- A left fold producing a pair componentwise is the pair of the two
left folds: the single pass of lib.rs lines 90-95 computes both the
minmax fold and the running sum. -/
theorem foldl_pair (f g : F → F → F) (l : List F) (a b : F) :
    l.foldl (fun acc v => (f acc.1 v, g acc.2 v)) (a, b)
      = (l.foldl f a, l.foldl g b) := by
  induction l generalizing a b with
  | nil => rfl
  | cons x xs ih => simpa using ih (f a x) (g b x)

/-- `eval_helper`'s single fold, split into the two terms of the
blend. -/
theorem evalHelper_eq (vs : List F) (seed : F) (fold : F → F → F) (r : ℚ) :
    evalHelper vs seed fold r
      = ((F.fin r).mul (vs.foldl fold seed)).add
          ((F.fin (1 - r)).mul (vs.foldl F.add (F.fin 0))) := by
  unfold evalHelper
  rw [foldl_pair]

/-- C1: for a state the oracle evaluates as `Mode m` or
`ModeWithValue m v`, the blended-search score is
`ratio * minmax_term + (1 - ratio) * aggregate_term`, where the minmax
term folds all child scores with `max` from seed `-inf` (`Maximize`)
or `min` from seed `+inf` (`Minimize`), the aggregate term is the raw
left-to-right arithmetic sum of all child scores from `0` (not divided
by the number of decisions), and in the `ModeWithValue` case only, `v`
is added to the blended result. -/
theorem blend_formula (M : Model S D) (r : ℚ) (n : Nat) (s : S)
    (m : Mode) (v : F) :
    (M.evaluate s = .Mode m →
      score M r (n + 1) s
        = (mapOpt (score M r n) ((M.decisions s).map (M.choose s))).map
            (fun vs => ((F.fin r).mul (vs.foldl m.fold m.seed)).add
              ((F.fin (1 - r)).mul (vs.foldl F.add (F.fin 0)))))
    ∧ (M.evaluate s = .ModeWithValue m v →
      score M r (n + 1) s
        = (mapOpt (score M r n) ((M.decisions s).map (M.choose s))).map
            (fun vs => (((F.fin r).mul (vs.foldl m.fold m.seed)).add
              ((F.fin (1 - r)).mul (vs.foldl F.add (F.fin 0)))).add v)) := by
  constructor <;> intro h <;> cases m <;>
    simp [score, h, evalHelper_eq, Mode.fold, Mode.seed]

/-- Witness for `blend_formula`: the root of `Mtree` at `ratio = 1/2`,
whose blended score is `-inf` (its dead-end child contributes `-inf`
to the sum). -/
theorem blend_formula_witness :
    Mtree.evaluate 0 = .Mode .Maximize ∧
    (score Mtree (1/2) 2 0
      = (mapOpt (score Mtree (1/2) 1)
            ((Mtree.decisions 0).map (Mtree.choose 0))).map
          (fun vs =>
            ((F.fin (1/2)).mul (vs.foldl Mode.Maximize.fold
                Mode.Maximize.seed)).add
              ((F.fin (1 - 1/2)).mul (vs.foldl F.add (F.fin 0))))) ∧
    score Mtree (1/2) 2 0 = some F.ninf :=
  ⟨rfl, (blend_formula Mtree (1/2) 1 0 .Maximize (F.fin 0)).1 rfl, by
    norm_num [score, Mtree, mapOpt, evalHelper, F.mul, F.add, F.fmax]⟩

/-- C7: `select` on a state with no legal decisions returns nothing,
for every ratio, every oracle, and every fuel bound. -/
theorem select_no_decisions (M : Model S D) (r : ℚ) (fuel : Nat) (s : S)
    (h : M.decisions s = []) : select M r fuel s = some (.ok none) := by
  simp [select, h, mapOpt, maxByCmp]

/-- Witness for `select_no_decisions`: state `1` of `Mtree` is a leaf
with no decisions. -/
theorem select_no_decisions_witness :
    Mtree.decisions 1 = [] ∧ select Mtree 1 5 1 = some (.ok none) :=
  ⟨rfl, select_no_decisions Mtree 1 5 1 rfl⟩

/-- C8 (amended): a state evaluated as `Mode m` with no legal decisions
degenerates to the fold seeds -- the minmax term is the infinite seed,
the aggregate term is `0` -- and for `0 < ratio <= 1` the resulting
score is the infinite seed itself; at `ratio = 0`, however, the blend
multiplies the infinite seed by zero, which is NaN, so the score is
NaN rather than an extreme value. -/
theorem empty_mode_score (M : Model S D) (r : ℚ) (n : Nat) (s : S)
    (m : Mode) (h : M.evaluate s = .Mode m) (hd : M.decisions s = [])
    (h0 : 0 ≤ r) (h1 : r ≤ 1) :
    score M r (n + 1) s = some (if r = 0 then F.nan else m.seed) := by
  rcases eq_or_lt_of_le h0 with h0' | h0'
  · cases m <;>
      simp [score, h, hd, mapOpt, evalHelper, F.mul, F.add, Mode.seed,
        ← h0']
  · cases m <;>
      simp [score, h, hd, mapOpt, evalHelper, F.mul, F.add, Mode.seed,
        h0', not_lt.mpr (le_of_lt h0'), ne_of_gt h0']

/-- Witness for `empty_mode_score`: the dead-end `Maximize` state `2`
of `Mtree` at `ratio = 1/2` scores `-inf`. -/
theorem empty_mode_score_witness :
    score Mtree (1/2) 1 2
        = some (if (1/2 : ℚ) = 0 then F.nan else Mode.Maximize.seed) ∧
    score Mtree (1/2) 1 2 = some F.ninf :=
  ⟨empty_mode_score Mtree (1/2) 0 2 .Maximize rfl rfl (by norm_num)
      (by norm_num),
    by norm_num [score, Mtree, mapOpt, evalHelper, F.mul, F.add]⟩

/-- C8 counterexample: at `ratio = 0` (inside the claimed range
`[0,1]`), the decision-less `Maximize` state `2` of `Mtree` scores
NaN -- not an infinite extreme score. -/
theorem empty_mode_score_cex :
    Mtree.evaluate 2 = .Mode .Maximize ∧ Mtree.decisions 2 = [] ∧
    score Mtree 0 1 2 = some F.nan ∧
    F.nan ≠ F.pinf ∧ F.nan ≠ F.ninf := by
  refine ⟨rfl, rfl, ?_, by simp, by simp⟩
  norm_num [score, Mtree, mapOpt, evalHelper, F.mul, F.add]

/-- C6 (amended): `choose` performs no validation of the ratio
whatsoever: for every ratio outside `[0,1]` the engine is still
constructed and produces selections, and the out-of-range ratio is
used unchanged in the blend (never clamped): on `Mchain` the selected
score is the blend `30 - 10 * ratio` at the given ratio. -/
theorem no_ratio_validation (r : ℚ) (hr : r < 0 ∨ 1 < r) :
    select Mchain r 3 0 = some (.ok (some (0, F.fin (30 - 10 * r)))) := by
  norm_num [select, score, Mchain, mapOpt, evalHelper, maxByCmp, foldE,
    maxStep, F.mul, F.add, F.fmax, F.pcmp, Except.map]
  ring_nf

/-- Witness for `no_ratio_validation` at the invalid ratio `3`. -/
theorem no_ratio_validation_witness :
    ((1 : ℚ) < 3) ∧
    select Mchain 3 3 0 = some (.ok (some (0, F.fin (30 - 10 * 3)))) :=
  ⟨by norm_num, no_ratio_validation 3 (Or.inr (by norm_num))⟩

/-- C6 counterexample: at the invalid ratio `2` the engine is produced
and `select` returns a decision with score `10 = 30 - 10 * 2` -- no
rejection happens, and no clamping either (at the clamped ratio `1`
the score would be `20`). -/
theorem no_ratio_validation_cex :
    select Mchain 2 3 0 = some (.ok (some (0, F.fin 10))) ∧
    select Mchain 1 3 0 = some (.ok (some (0, F.fin 20))) := by
  constructor <;>
    norm_num [select, score, Mchain, mapOpt, evalHelper, maxByCmp, foldE,
      maxStep, F.mul, F.add, F.fmax, F.pcmp, Except.map]

/-- `partial_cmp` against NaN on the left is undefined. -/
theorem pcmp_nan_left (b : F) : F.nan.pcmp b = none := by
  cases b <;> rfl

/-- `partial_cmp` against NaN on the right is undefined. -/
theorem pcmp_nan_right (a : F) : a.pcmp F.nan = none := by
  cases a <;> rfl

/-- `partial_cmp` is total away from NaN. -/
theorem pcmp_total (a b : F) (ha : a ≠ F.nan) (hb : b ≠ F.nan) :
    ∃ c, a.pcmp b = some c := by
  cases a <;> cases b <;> simp [F.pcmp] at ha hb ⊢

/-- Non-NaN scores compare equal to themselves. -/
theorem ble_refl {a : F} (h : a ≠ F.nan) : F.ble a a = true := by
  cases a <;> simp [F.ble, F.pcmp] at h ⊢

/-- Strict comparison implies non-strict comparison. -/
theorem blt_ble {a b : F} (h : F.blt a b = true) : F.ble a b = true := by
  unfold F.blt at h
  unfold F.ble
  cases hc : a.pcmp b with
  | none => rw [hc] at h; exact absurd h (by simp)
  | some c => rw [hc] at h; cases c <;> simp_all

/-- `blt` on finite scores is the rational strict order. -/
theorem blt_fin_iff (a b : ℚ) :
    F.blt (F.fin a) (F.fin b) = true ↔ a < b := by
  simp only [F.blt, F.pcmp]
  split_ifs with h1 h2 <;> simpa using h1

/-- `ble` on finite scores is the rational order. -/
theorem ble_fin_iff (a b : ℚ) :
    F.ble (F.fin a) (F.fin b) = true ↔ a ≤ b := by
  simp only [F.ble, F.pcmp]
  split_ifs with h1 h2
  · simpa using le_of_lt h1
  · simpa using le_of_eq h2
  · push_neg at h1
    have hnb : ¬ a ≤ b := fun hle => h2 (le_antisymm hle h1)
    simpa using hnb

/-- A `Greater` verdict of `partial_cmp` flips to a strict comparison
the other way. -/
theorem pcmp_gt_blt {a b : F} (h : a.pcmp b = some .gt) :
    F.blt b a = true := by
  cases a <;> cases b <;>
    first
      | (simp only [F.pcmp, Option.some.injEq] at h
         split_ifs at h with h1 h2
         exact (blt_fin_iff _ _).mpr
           (lt_of_le_of_ne (not_lt.mp h1) (fun heq => h2 heq.symm)))
      | simp_all [F.pcmp, F.blt]

/-- A `Less` or `Equal` verdict of `partial_cmp` gives `ble`. -/
theorem pcmp_lt_eq_ble {a b : F} {c : Ordering} (h : a.pcmp b = some c)
    (hc : c ≠ .gt) : F.ble a b = true := by
  unfold F.ble
  rw [h]
  cases c <;> simp_all

/-- `ble` is transitive. -/
theorem ble_trans {a b c : F} (h1 : F.ble a b = true)
    (h2 : F.ble b c = true) : F.ble a c = true := by
  cases a <;> cases b <;> cases c <;>
    first
      | (rw [ble_fin_iff] at h1 h2 ⊢; linarith)
      | simp_all [F.ble, F.pcmp]

/-- The reduction of `max_by` over NaN-free pairs returns the LAST
element achieving the maximum: the whole list decomposes around the
returned pair, every score is `<=` it, and every score strictly after
it is `<` it. -/
theorem foldE_max (xs : List (D × F)) : ∀ (x : D × F), x.2 ≠ F.nan →
    (∀ p ∈ xs, p.2 ≠ F.nan) →
    ∃ l₁ p l₂, x :: xs = l₁ ++ p :: l₂ ∧ foldE maxStep x xs = .ok p ∧
      (∀ q ∈ x :: xs, F.ble q.2 p.2 = true) ∧
      (∀ q ∈ l₂, F.blt q.2 p.2 = true) := by
  induction xs with
  | nil =>
    intro x hx _
    refine ⟨[], x, [], rfl, rfl, ?_, by simp⟩
    intro q hq
    simp only [List.mem_singleton] at hq
    subst hq
    exact ble_refl hx
  | cons y ys ih =>
    intro x hx hall
    have hy : y.2 ≠ F.nan := hall y (by simp)
    have hys : ∀ p ∈ ys, p.2 ≠ F.nan := fun p hp => hall p (by simp [hp])
    obtain ⟨c, hc⟩ := pcmp_total x.2 y.2 hx hy
    have hsplit : (maxStep x y = .ok x ∧ F.blt y.2 x.2 = true)
        ∨ (maxStep x y = .ok y ∧ F.ble x.2 y.2 = true) := by
      cases c with
      | gt => exact Or.inl ⟨by simp [maxStep, hc], pcmp_gt_blt hc⟩
      | lt =>
        exact Or.inr ⟨by simp [maxStep, hc], pcmp_lt_eq_ble hc (by simp)⟩
      | eq =>
        exact Or.inr ⟨by simp [maxStep, hc], pcmp_lt_eq_ble hc (by simp)⟩
    rcases hsplit with ⟨hstep, hyx⟩ | ⟨hstep, hxy⟩
    · have hrw : foldE maxStep x (y :: ys) = foldE maxStep x ys := by
        simp [foldE, hstep]
      obtain ⟨l₁, p, l₂, hdec, hfold, hle, hlt⟩ := ih x hx hys
      cases l₁ with
      | nil =>
        simp only [List.nil_append] at hdec
        obtain ⟨hpx, hl₂⟩ := List.cons.inj hdec
        subst hpx
        subst hl₂
        refine ⟨[], x, y :: ys, rfl, by rw [hrw, hfold], ?_, ?_⟩
        · intro q hq
          rcases List.mem_cons.mp hq with hq | hq
          · subst hq; exact hle q (List.mem_cons_self _ _)
          · rcases List.mem_cons.mp hq with hq | hq
            · subst hq; exact blt_ble hyx
            · exact hle q (List.mem_cons_of_mem _ hq)
        · intro q hq
          rcases List.mem_cons.mp hq with hq | hq
          · subst hq; exact hyx
          · exact hlt q hq
      | cons a t =>
        simp only [List.cons_append] at hdec
        obtain ⟨hax, hys'⟩ := List.cons.inj hdec
        subst hax
        subst hys'
        refine ⟨x :: y :: t, p, l₂, by simp, by rw [hrw, hfold], ?_, hlt⟩
        intro q hq
        rcases List.mem_cons.mp hq with hq | hq
        · subst hq; exact hle q (List.mem_cons_self _ _)
        · rcases List.mem_cons.mp hq with hq | hq
          · subst hq
            exact ble_trans (blt_ble hyx) (hle x (List.mem_cons_self _ _))
          · exact hle q (List.mem_cons_of_mem _ hq)
    · have hrw : foldE maxStep x (y :: ys) = foldE maxStep y ys := by
        simp [foldE, hstep]
      obtain ⟨l₁, p, l₂, hdec, hfold, hle, hlt⟩ := ih y hy hys
      refine ⟨x :: l₁, p, l₂, by rw [List.cons_append, ← hdec],
        by rw [hrw, hfold], ?_, hlt⟩
      intro q hq
      rcases List.mem_cons.mp hq with hq | hq
      · subst hq
        exact ble_trans hxy (hle y (List.mem_cons_self _ _))
      · exact hle q hq

/-- C4 (amended): with at least one legal decision and no NaN successor
score, `select` resolves ties by a deterministic left-to-right scan
with strict greater-than comparison in which the current leader is
kept only when strictly greater -- so among the decisions tied at the
maximum the LAST one in enumeration order is returned (Rust's `max_by`
keeps the later element on `Equal`), not the first. -/
theorem select_tie_break (M : Model S D) (r : ℚ) (fuel : Nat) (s : S)
    (l : List (D × F))
    (hl : mapOpt (fun d => (score M r fuel (M.choose s d)).map
        (fun v => (d, v))) (M.decisions s) = some l)
    (hne : l ≠ []) (hnan : ∀ p ∈ l, p.2 ≠ F.nan) :
    ∃ l₁ p l₂, l = l₁ ++ p :: l₂ ∧
      select M r fuel s = some (.ok (some p)) ∧
      (∀ q ∈ l, F.ble q.2 p.2 = true) ∧
      (∀ q ∈ l₂, F.blt q.2 p.2 = true) := by
  cases l with
  | nil => exact absurd rfl hne
  | cons x xs =>
    obtain ⟨l₁, p, l₂, hdec, hfold, hle, hlt⟩ :=
      foldE_max xs x (hnan x (by simp)) (fun p hp => hnan p (by simp [hp]))
    exact ⟨l₁, p, l₂, hdec,
      by simp [select, hl, maxByCmp, hfold, Except.map], hle, hlt⟩

/-- Witness for `select_tie_break`: the perfect tie of `Mtie`. -/
theorem select_tie_break_witness :
    ∃ l₁ p l₂,
      ([(0, F.fin 1), (1, F.fin 1)] : List (Nat × F)) = l₁ ++ p :: l₂ ∧
      select Mtie 1 3 0 = some (.ok (some p)) ∧
      (∀ q ∈ ([(0, F.fin 1), (1, F.fin 1)] : List (Nat × F)),
        F.ble q.2 p.2 = true) ∧
      (∀ q ∈ l₂, F.blt q.2 p.2 = true) :=
  select_tie_break Mtie 1 3 0 [(0, F.fin 1), (1, F.fin 1)]
    (by norm_num [Mtie, mapOpt, score, evalHelper, F.mul, F.add, F.fmax])
    (by simp)
    (by intro p hp
        simp only [List.mem_cons, List.not_mem_nil, or_false] at hp
        rcases hp with rfl | rfl <;> simp)

/-- C4 counterexample: on `Mtie` both decisions `0` and `1` achieve the
maximal score `1`, decision `0` comes first in enumeration order, yet
`select` returns decision `1` -- the first maximal decision is NOT the
one returned. -/
theorem select_tie_break_cex :
    Mtie.decisions 0 = [0, 1] ∧
    score Mtie 1 3 (Mtie.choose 0 0) = some (F.fin 1) ∧
    score Mtie 1 3 (Mtie.choose 0 1) = some (F.fin 1) ∧
    select Mtie 1 3 0 = some (.ok (some (1, F.fin 1))) := by
  refine ⟨rfl, ?_, ?_, ?_⟩ <;>
    norm_num [select, score, Mtie, mapOpt, evalHelper, maxByCmp, foldE,
      maxStep, F.mul, F.add, F.fmax, F.pcmp, Except.map]

/-- Any NaN among the scores poisons every comparison `max_by` makes,
provided at least one comparison happens. -/
theorem foldE_nan (xs : List (D × F)) : ∀ (x : D × F), xs ≠ [] →
    (x.2 = F.nan ∨ ∃ p ∈ xs, p.2 = F.nan) →
    foldE maxStep x xs = .error () := by
  induction xs with
  | nil => intro x h _; exact absurd rfl h
  | cons y ys ih =>
    intro x _ hn
    by_cases hx : x.2 = F.nan
    · have hnone : x.2.pcmp y.2 = none := by rw [hx]; exact pcmp_nan_left _
      simp [foldE, maxStep, hnone]
    · by_cases hy : y.2 = F.nan
      · have hnone : x.2.pcmp y.2 = none := by
          rw [hy]; exact pcmp_nan_right _
        simp [foldE, maxStep, hnone]
      · have hn' : ∃ p ∈ ys, p.2 = F.nan := by
          rcases hn with h | ⟨p, hp, hpn⟩
          · exact absurd h hx
          · rcases List.mem_cons.mp hp with hp | hp
            · exact absurd (hp ▸ hpn) hy
            · exact ⟨p, hp, hpn⟩
        have hysne : ys ≠ [] := by
          rintro rfl
          obtain ⟨p, hp, _⟩ := hn'
          simp at hp
        obtain ⟨c, hc⟩ := pcmp_total x.2 y.2 hx hy
        have hstep : foldE maxStep x (y :: ys) = foldE maxStep x ys
            ∨ foldE maxStep x (y :: ys) = foldE maxStep y ys := by
          cases c with
          | gt => exact Or.inl (by simp [foldE, maxStep, hc])
          | lt => exact Or.inr (by simp [foldE, maxStep, hc])
          | eq => exact Or.inr (by simp [foldE, maxStep, hc])
        rcases hstep with h | h <;> rw [h] <;>
          exact ih _ hysne (Or.inr hn')

/-- C5 (amended): when at least two successor scores are computed and
any one of them is NaN, `select` aborts on the undefined comparison
(the `unwrap` of `partial_cmp` panics), which is an explicit error
rather than a silent mis-ordering; but when there is exactly one legal
decision, `max_by` makes no comparison at all and a NaN score is
returned silently as an ordinary result -- the claim's "every
invocation" is too strong. -/
theorem select_nan (M : Model S D) (r : ℚ) (fuel : Nat) (s : S)
    (l : List (D × F))
    (hl : mapOpt (fun d => (score M r fuel (M.choose s d)).map
        (fun v => (d, v))) (M.decisions s) = some l) :
    ((2 ≤ l.length ∧ ∃ p ∈ l, p.2 = F.nan) →
        select M r fuel s = some (.error ()))
    ∧ (∀ p, l = [p] → select M r fuel s = some (.ok (some p))) := by
  constructor
  · rintro ⟨hlen, p, hp, hpn⟩
    cases l with
    | nil => simp at hlen
    | cons x xs =>
      have hxs : xs ≠ [] := by
        rintro rfl
        simp at hlen
      have herr : foldE maxStep x xs = .error () := by
        refine foldE_nan xs x hxs ?_
        rcases List.mem_cons.mp hp with hp | hp
        · exact Or.inl (hp ▸ hpn)
        · exact Or.inr ⟨p, hp, hpn⟩
      simp [select, hl, maxByCmp, herr, Except.map]
  · rintro p rfl
    simp [select, hl, maxByCmp, foldE, Except.map]

/-- Witness for `select_nan`: with two decisions and a NaN score the
selection aborts (`MnanTwo`); with a single decision the NaN pair is
returned (`MnanOne`). -/
theorem select_nan_witness :
    select MnanTwo 1 3 0 = some (.error ()) ∧
    select MnanOne 1 3 0 = some (.ok (some (7, F.nan))) :=
  ⟨(select_nan MnanTwo 1 3 0 [(0, F.nan), (1, F.fin 1)]
      (by norm_num [MnanTwo, mapOpt, score, evalHelper, F.mul, F.add,
        F.fmax])).1
      ⟨by simp, (0, F.nan), by simp, rfl⟩,
    (select_nan MnanOne 1 3 0 [(7, F.nan)]
      (by norm_num [MnanOne, mapOpt, score, evalHelper, F.mul, F.add,
        F.fmax])).2
      (7, F.nan) rfl⟩

/-- C5 counterexample: on `MnanOne` the single successor score is NaN,
yet `select` reports no error at all -- it returns the NaN pair as an
ordinary result. -/
theorem select_nan_cex :
    score MnanOne 1 3 (MnanOne.choose 0 7) = some F.nan ∧
    select MnanOne 1 3 0 = some (.ok (some (7, F.nan))) := by
  constructor <;>
    norm_num [select, score, MnanOne, mapOpt, evalHelper, maxByCmp, foldE,
      maxStep, F.mul, F.add, F.fmax, F.pcmp, Except.map]

/-- Congruence for `mapOpt`. -/
theorem mapOpt_congr {f g : α → Option β} : ∀ (l : List α),
    (∀ a ∈ l, f a = g a) → mapOpt f l = mapOpt g l
  | [], _ => rfl
  | a :: l, h => by
    simp only [mapOpt, h a (List.mem_cons_self _ _),
      mapOpt_congr l (fun b hb => h b (List.mem_cons_of_mem _ hb))]

/-- Every output of a successful `mapOpt` comes from some input. -/
theorem mapOpt_mem {f : α → Option β} : ∀ {l : List α} {vs : List β},
    mapOpt f l = some vs → ∀ v ∈ vs, ∃ a ∈ l, f a = some v := by
  intro l
  induction l with
  | nil =>
    intro vs h v hv
    simp only [mapOpt, Option.some.injEq] at h
    subst h
    simp at hv
  | cons a l ih =>
    intro vs h v hv
    simp only [mapOpt] at h
    cases hfa : f a with
    | none => rw [hfa] at h; simp at h
    | some b =>
      rw [hfa] at h
      cases hrest : mapOpt f l with
      | none => rw [hrest] at h; simp at h
      | some bs =>
        rw [hrest] at h
        simp only [Option.map_some', Option.some.injEq] at h
        subst h
        rcases List.mem_cons.mp hv with hv | hv
        · exact ⟨a, List.mem_cons_self _ _, hv ▸ hfa⟩
        · obtain ⟨a', ha', hfa'⟩ := ih hrest v hv
          exact ⟨a', List.mem_cons_of_mem _ ha', hfa'⟩

/-- A successful `mapOpt` preserves length. -/
theorem mapOpt_length {f : α → Option β} : ∀ {l : List α} {vs : List β},
    mapOpt f l = some vs → vs.length = l.length := by
  intro l
  induction l with
  | nil =>
    intro vs h
    simp only [mapOpt, Option.some.injEq] at h
    subst h
    rfl
  | cons a l ih =>
    intro vs h
    simp only [mapOpt] at h
    cases hfa : f a with
    | none => rw [hfa] at h; simp at h
    | some b =>
      rw [hfa] at h
      cases hrest : mapOpt f l with
      | none => rw [hrest] at h; simp at h
      | some bs =>
        rw [hrest] at h
        simp only [Option.map_some', Option.some.injEq] at h
        subst h
        simp [ih hrest]

/-- On a terminating decision process (witnessed by a measure that
strictly decreases along every legal transition), the blended score of
any state strictly below the root is unchanged when the oracle's
verdict at the root alone changes: the recursion never consults the
oracle at the root. -/
theorem score_oracle_local (M M' : Model S D) (mu : S → Nat) (r : ℚ)
    (s : S)
    (hdec : M'.decisions = M.decisions) (hch : M'.choose = M.choose)
    (hev : ∀ x, x ≠ s → M'.evaluate x = M.evaluate x)
    (hmu : ∀ x, ∀ d ∈ M.decisions x, mu (M.choose x d) < mu x) :
    ∀ fuel x, mu x < mu s → score M r fuel x = score M' r fuel x := by
  intro fuel
  induction fuel with
  | zero => intro x _; rfl
  | succ n ih =>
    intro x hx
    have hxs : x ≠ s := fun h => absurd hx (by rw [h]; exact lt_irrefl _)
    have hevx : M'.evaluate x = M.evaluate x := hev x hxs
    have hchild : mapOpt (score M r n) ((M.decisions x).map (M.choose x))
        = mapOpt (score M' r n) ((M.decisions x).map (M.choose x)) := by
      refine mapOpt_congr _ ?_
      intro c hc
      obtain ⟨d, hd, hcd⟩ := List.mem_map.mp hc
      exact ih c (hcd ▸ lt_trans (hmu x d hd) hx)
    cases hevAt : M.evaluate x with
    | Value v => simp [score, hevAt, hevx]
    | Mode m =>
      cases m <;>
        simp [score, hevAt, hevx, hdec, hch, hchild]
    | ModeWithValue m v =>
      cases m <;>
        simp [score, hevAt, hevx, hdec, hch, hchild]

/-- C10: `select` never invokes the oracle on its input state itself:
on a terminating decision process, two engines whose oracles agree
everywhere except possibly at the input state `s` produce identical
selections at `s` -- even an `s` the oracle would classify as a
terminal `Value` still has its decisions enumerated and its successors
scored recursively. -/
theorem select_ignores_root_eval (M M' : Model S D) (mu : S → Nat)
    (r : ℚ) (fuel : Nat) (s : S)
    (hdec : M'.decisions = M.decisions) (hch : M'.choose = M.choose)
    (hev : ∀ x, x ≠ s → M'.evaluate x = M.evaluate x)
    (hmu : ∀ x, ∀ d ∈ M.decisions x, mu (M.choose x d) < mu x) :
    select M r fuel s = select M' r fuel s := by
  unfold select
  rw [hdec, hch]
  congr 1
  refine mapOpt_congr _ ?_
  intro d hd
  rw [score_oracle_local M M' mu r s hdec hch hev hmu fuel
    (M.choose s d) (hmu s d hd)]

/-- Witness for `select_ignores_root_eval`: `MvalRoot` and `MmodeRoot`
differ only in the oracle's verdict at the root (`Value 42` versus
`Maximize`), yet `select` returns the same decision and score. -/
theorem select_ignores_root_eval_witness :
    MvalRoot.evaluate 0 = .Value (F.fin 42) ∧
    MmodeRoot.evaluate 0 = .Mode .Maximize ∧
    select MvalRoot 1 3 0 = select MmodeRoot 1 3 0 ∧
    select MvalRoot 1 3 0 = some (.ok (some (1, F.fin 9))) := by
  refine ⟨rfl, rfl,
    select_ignores_root_eval MvalRoot MmodeRoot muRoot 1 3 0 rfl rfl
      ?_ ?_, ?_⟩
  · intro x hx
    simp [MvalRoot, MmodeRoot, hx]
  · intro x d hd
    by_cases hx : x = 0
    · subst hx
      simp [MvalRoot] at hd
      rcases hd with rfl | rfl <;> decide
    · simp [MvalRoot, hx] at hd
  · norm_num [select, score, MvalRoot, mapOpt, evalHelper, maxByCmp,
      foldE, maxStep, F.mul, F.add, F.fmax, F.pcmp, Except.map]

/-- A mode fold starting from a finite accumulator over finite scores
stays finite. -/
theorem fold_fin_acc (m : Mode) : ∀ (vs : List F) (a : ℚ),
    (∀ v ∈ vs, ∃ q, v = F.fin q) →
    ∃ q, vs.foldl m.fold (F.fin a) = F.fin q := by
  intro vs
  induction vs with
  | nil => intro a _; exact ⟨a, rfl⟩
  | cons v rest ih =>
    intro a hfin
    obtain ⟨qv, hqv⟩ := hfin v (List.mem_cons_self _ _)
    subst hqv
    have hstep : m.fold (F.fin a) (F.fin qv)
        = F.fin (if m = .Maximize then max a qv else min a qv) := by
      cases m <;> simp [Mode.fold, F.fmax, F.fmin]
    simp only [List.foldl, hstep]
    exact ih _ (fun v hv => hfin v (List.mem_cons_of_mem _ hv))

/-- A mode fold from its infinite seed over a nonempty list of finite
scores is finite. -/
theorem fold_seed_fin (m : Mode) (vs : List F) (hne : vs ≠ [])
    (hfin : ∀ v ∈ vs, ∃ q, v = F.fin q) :
    ∃ q, vs.foldl m.fold m.seed = F.fin q := by
  cases vs with
  | nil => exact absurd rfl hne
  | cons v rest =>
    obtain ⟨qv, hqv⟩ := hfin v (List.mem_cons_self _ _)
    subst hqv
    have hstep : m.fold m.seed (F.fin qv) = F.fin qv := by
      cases m <;> simp [Mode.fold, Mode.seed, F.fmax, F.fmin]
    simp only [List.foldl, hstep]
    exact fold_fin_acc m rest qv
      (fun v hv => hfin v (List.mem_cons_of_mem _ hv))

/-- The running sum over finite scores is finite. -/
theorem sum_fin : ∀ (vs : List F) (a : ℚ),
    (∀ v ∈ vs, ∃ q, v = F.fin q) →
    ∃ q, vs.foldl F.add (F.fin a) = F.fin q := by
  intro vs
  induction vs with
  | nil => intro a _; exact ⟨a, rfl⟩
  | cons v rest ih =>
    intro a hfin
    obtain ⟨qv, hqv⟩ := hfin v (List.mem_cons_self _ _)
    subst hqv
    simp only [List.foldl, show F.add (F.fin a) (F.fin qv)
      = F.fin (a + qv) from rfl]
    exact ih _ (fun v hv => hfin v (List.mem_cons_of_mem _ hv))

/-- At `ratio = 1`, when both fold results are finite, the blend
collapses to the bare minmax fold. -/
theorem evalHelper_one (vs : List F) (m : Mode)
    (h1 : ∃ q, vs.foldl m.fold m.seed = F.fin q)
    (h2 : ∃ q, vs.foldl F.add (F.fin 0) = F.fin q) :
    evalHelper vs m.seed m.fold 1 = vs.foldl m.fold m.seed := by
  obtain ⟨q1, e1⟩ := h1
  obtain ⟨q2, e2⟩ := h2
  rw [evalHelper_eq, e1, e2]
  norm_num [F.mul, F.add]

/-- Simultaneous induction for the `ratio = 1` refinement: on an
oracle that returns only finite values and never leaves a `Mode` or
`ModeWithValue` state without decisions, the blended score at
`ratio = 1` is the minimax value, and every minimax value is finite. -/
theorem score_one_minimax_aux (M : Model S D)
    (hval : ∀ x v, M.evaluate x = .Value v → ∃ q, v = F.fin q)
    (hmv : ∀ x m v, M.evaluate x = .ModeWithValue m v → ∃ q, v = F.fin q)
    (hne : ∀ x m, M.evaluate x = .Mode m → M.decisions x ≠ [])
    (hne' : ∀ x m v, M.evaluate x = .ModeWithValue m v →
      M.decisions x ≠ []) :
    ∀ fuel x, score M 1 fuel x = minimaxSpec M fuel x ∧
      (∀ v, minimaxSpec M fuel x = some v → ∃ q, v = F.fin q) := by
  intro fuel
  induction fuel with
  | zero => intro x; exact ⟨rfl, by intro v h; cases h⟩
  | succ n ih =>
    intro x
    have hcongr : mapOpt (score M 1 n) ((M.decisions x).map (M.choose x))
        = mapOpt (minimaxSpec M n) ((M.decisions x).map (M.choose x)) :=
      mapOpt_congr _ (fun c _ => (ih c).1)
    cases hevAt : M.evaluate x with
    | Value v =>
      refine ⟨by simp [score, minimaxSpec, hevAt], ?_⟩
      intro w hw
      simp only [minimaxSpec, hevAt, Option.some.injEq] at hw
      exact hw ▸ hval x v hevAt
    | Mode m =>
      cases hch : mapOpt (minimaxSpec M n)
          ((M.decisions x).map (M.choose x)) with
      | none =>
        refine ⟨?_, ?_⟩
        · cases m <;>
            simp [score, minimaxSpec, hevAt, hcongr, hch, Mode.fold,
              Mode.seed]
        · intro v hv
          simp [minimaxSpec, hevAt, hch] at hv
      | some vs =>
        have hfinvs : ∀ v ∈ vs, ∃ q, v = F.fin q := by
          intro v hv
          obtain ⟨c, _, hc⟩ := mapOpt_mem hch v hv
          exact (ih c).2 v hc
        have hvsne : vs ≠ [] := by
          intro hnil
          subst hnil
          have hlen := mapOpt_length hch
          simp at hlen
          exact hne x m hevAt (List.length_eq_zero.mp hlen.symm)
        have hfold := fold_seed_fin m vs hvsne hfinvs
        have hsum := sum_fin vs 0 hfinvs
        refine ⟨?_, ?_⟩
        · have heval := evalHelper_one vs m hfold hsum
          cases m <;>
            simp_all [score, minimaxSpec, hevAt, hcongr, hch, Mode.fold,
              Mode.seed]
        · intro v hv
          simp only [minimaxSpec, hevAt, hch, Option.map_some',
            Option.some.injEq] at hv
          exact hv ▸ hfold
    | ModeWithValue m v =>
      obtain ⟨qv, hqv⟩ := hmv x m v hevAt
      cases hch : mapOpt (minimaxSpec M n)
          ((M.decisions x).map (M.choose x)) with
      | none =>
        refine ⟨?_, ?_⟩
        · cases m <;>
            simp [score, minimaxSpec, hevAt, hcongr, hch, Mode.fold,
              Mode.seed]
        · intro w hw
          simp [minimaxSpec, hevAt, hch] at hw
      | some vs =>
        have hfinvs : ∀ w ∈ vs, ∃ q, w = F.fin q := by
          intro w hw
          obtain ⟨c, _, hc⟩ := mapOpt_mem hch w hw
          exact (ih c).2 w hc
        have hvsne : vs ≠ [] := by
          intro hnil
          subst hnil
          have hlen := mapOpt_length hch
          simp at hlen
          exact hne' x m v hevAt (List.length_eq_zero.mp hlen.symm)
        have hfold := fold_seed_fin m vs hvsne hfinvs
        have hsum := sum_fin vs 0 hfinvs
        have heval := evalHelper_one vs m hfold hsum
        obtain ⟨qf, hqf⟩ := hfold
        refine ⟨?_, ?_⟩
        · cases m <;>
            simp_all [score, minimaxSpec, hevAt, hcongr, hch, Mode.fold,
              Mode.seed]
        · intro w hw
          simp only [minimaxSpec, hevAt, hch, Option.map_some',
            Option.some.injEq] at hw
          subst hqv
          exact ⟨qf + qv, by rw [← hw, hqf]; rfl⟩

/-- C2 (amended): at `ratio = 1.0` the blended-search score equals the
standard minimax value of the state, provided the oracle returns only
finite `Value` and offset values and gives every `Mode`-like state at
least one decision (so that no infinite fold seed leaks into a sum,
where the blend's `0 * (+-inf)` would produce NaN). -/
theorem ratio_one_minimax (M : Model S D)
    (hval : ∀ x v, M.evaluate x = .Value v → ∃ q, v = F.fin q)
    (hmv : ∀ x m v, M.evaluate x = .ModeWithValue m v → ∃ q, v = F.fin q)
    (hne : ∀ x m, M.evaluate x = .Mode m → M.decisions x ≠ [])
    (hne' : ∀ x m v, M.evaluate x = .ModeWithValue m v →
      M.decisions x ≠ []) (fuel : Nat) (x : S) :
    score M 1 fuel x = minimaxSpec M fuel x :=
  (score_one_minimax_aux M hval hmv hne hne' fuel x).1

/-- Witness for `ratio_one_minimax`: the tie tree `Mtie`, whose root
minimax value is `1`. -/
theorem ratio_one_minimax_witness :
    score Mtie 1 3 0 = minimaxSpec Mtie 3 0 ∧
    minimaxSpec Mtie 3 0 = some (F.fin 1) := by
  constructor
  · refine ratio_one_minimax Mtie ?_ ?_ ?_ ?_ 3 0
    · intro x v h
      by_cases hx : x = 0
      · simp [Mtie, hx] at h
      · simp [Mtie, hx] at h
        exact ⟨1, h.symm⟩
    · intro x m v h
      by_cases hx : x = 0 <;> simp [Mtie, hx] at h
    · intro x m h
      by_cases hx : x = 0
      · subst hx; simp [Mtie]
      · simp [Mtie, hx] at h
    · intro x m v h
      by_cases hx : x = 0 <;> simp [Mtie, hx] at h
  · norm_num [minimaxSpec, Mtie, mapOpt, Mode.fold, Mode.seed, F.fmax]

/-- C2 counterexample: in `Mtree` the dead-end `Maximize` state `2`
scores `-inf`, the root's aggregate sum is `-inf`, and at
`ratio = 1.0` the blend computes `1 * 5 + 0 * -inf = NaN`, while the
standard minimax value of the root is `5`. -/
theorem ratio_one_minimax_cex :
    Mtree.evaluate 2 = .Mode .Maximize ∧ Mtree.decisions 2 = [] ∧
    score Mtree 1 2 0 = some F.nan ∧
    minimaxSpec Mtree 2 0 = some (F.fin 5) ∧
    F.nan ≠ F.fin 5 := by
  refine ⟨rfl, rfl, ?_, ?_, by simp⟩ <;>
    norm_num [score, minimaxSpec, Mtree, mapOpt, evalHelper, F.mul, F.add,
      F.fmax, Mode.fold, Mode.seed]
/-- A failed lookup means the key is absent. -/
theorem lookupC_none_iff [DecidableEq I] : ∀ (c : List (I × O)) (i : I),
    lookupC c i = none ↔ i ∉ keysC c := by
  intro c
  induction c with
  | nil => intro i; simp [lookupC, keysC]
  | cons p c ih =>
    intro i
    obtain ⟨j, o⟩ := p
    by_cases hij : i = j
    · subst hij
      simp [lookupC, keysC]
    · simp [lookupC, keysC, hij, ih]

/-- Core invariant of the memoizing combinator, by mutual induction on
fuel over `recC` and `runC`: when the wrapped function only ever
requests inputs of strictly smaller measure (the spec's termination
obligation), any successful run preserves the `StOK` invariant --
each input is handed to the wrapped function at most once, and every
logged input is cached except the in-flight ones -- and only grows the
set of cached keys. -/
theorem cache_inv [DecidableEq I] (f : I → Comp I O O) (mu : I → Nat)
    (hcalls : ∀ i, CompBelow mu (mu i) (f i)) : ∀ n : Nat,
    (∀ (i : I) (st : St I O) (A : List I) (o : O) (st2 : St I O),
      StOK st A → (∀ x ∈ A, mu i < mu x) →
      recC f n i st = some (o, st2) →
      StOK st2 A ∧ ∀ x ∈ keysC st.cache, x ∈ keysC st2.cache)
    ∧ (∀ (comp : Comp I O O) (b : Nat) (st : St I O) (A : List I) (o : O)
      (st2 : St I O),
      CompBelow mu b comp → (∀ x ∈ A, b ≤ mu x) → StOK st A →
      runC f n comp st = some (o, st2) →
      StOK st2 A ∧ ∀ x ∈ keysC st.cache, x ∈ keysC st2.cache) := by
  intro n
  induction n with
  | zero =>
    constructor
    · intro i st A o st2 _ _ h
      simp [recC] at h
    · intro comp b st A o st2 _ _ hok h
      cases comp with
      | ret r =>
        have hstep : runC f 0 (.ret r) st = some (r, st) := rfl
        rw [hstep] at h
        simp only [Option.some.injEq, Prod.mk.injEq] at h
        obtain ⟨rfl, rfl⟩ := h
        exact ⟨hok, fun x hx => hx⟩
      | call j k => simp [runC] at h
  | succ n ih =>
    obtain ⟨ihrec, ihrun⟩ := ih
    constructor
    · intro i st A o st2 hok hA h
      cases hl : lookupC st.cache i with
      | some o0 =>
        have hstep : recC f (n + 1) i st = some (o0, st) := by
          simp [recC, hl]
        rw [hstep] at h
        simp only [Option.some.injEq, Prod.mk.injEq] at h
        obtain ⟨rfl, rfl⟩ := h
        exact ⟨hok, fun x hx => hx⟩
      | none =>
        cases hr : runC f n (f i) ⟨st.cache, st.log ++ [i]⟩ with
        | none =>
          have hstep : recC f (n + 1) i st = none := by
            simp [recC, hl, hr]
          rw [hstep] at h
          cases h
        | some res =>
          obtain ⟨o1, st1⟩ := res
          have hstep : recC f (n + 1) i st
              = some (o1, ⟨(i, o1) :: st1.cache, st1.log⟩) := by
            simp [recC, hl, hr]
          rw [hstep] at h
          simp only [Option.some.injEq, Prod.mk.injEq] at h
          obtain ⟨rfl, rfl⟩ := h
          have hnotlog : i ∉ st.log := by
            intro hmem
            rcases hok.2 i hmem with hk | hA'
            · exact (lookupC_none_iff _ _).mp hl hk
            · exact absurd (hA i hA') (lt_irrefl _)
          have hok1 : StOK (⟨st.cache, st.log ++ [i]⟩ : St I O)
              (i :: A) := by
            constructor
            · intro x
              show (st.log ++ [i]).count x ≤ 1
              rw [List.count_append]
              by_cases hxi : x = i
              · subst hxi
                rw [List.count_eq_zero.mpr hnotlog]
                simp
              · have hone : ([i].count x : Nat) = 0 := by
                  simp [List.count_singleton', hxi]
                rw [hone]
                simpa using hok.1 x
            · intro x hx
              rcases List.mem_append.mp hx with hx | hx
              · rcases hok.2 x hx with hk | hA'
                · exact Or.inl hk
                · exact Or.inr (List.mem_cons_of_mem _ hA')
              · simp only [List.mem_singleton] at hx
                subst hx
                exact Or.inr (List.mem_cons_self _ _)
          have hArun : ∀ x ∈ i :: A, mu i ≤ mu x := by
            intro x hx
            rcases List.mem_cons.mp hx with rfl | hx
            · exact le_refl _
            · exact le_of_lt (hA x hx)
          obtain ⟨hok2, hkeys2⟩ := ihrun (f i) (mu i)
            ⟨st.cache, st.log ++ [i]⟩ (i :: A) o1 st1 (hcalls i) hArun
            hok1 hr
          refine ⟨⟨hok2.1, ?_⟩, ?_⟩
          · intro x hx
            rcases hok2.2 x hx with hk | hiA
            · refine Or.inl ?_
              show x ∈ keysC ((i, o1) :: st1.cache)
              simp only [keysC, List.map_cons] at hk ⊢
              exact List.mem_cons_of_mem _ hk
            · rcases List.mem_cons.mp hiA with rfl | hA'
              · refine Or.inl ?_
                show x ∈ keysC ((x, o1) :: st1.cache)
                simp [keysC]
              · exact Or.inr hA'
          · intro x hx
            have hx1 := hkeys2 x hx
            show x ∈ keysC ((i, o1) :: st1.cache)
            simp only [keysC, List.map_cons] at hx1 ⊢
            exact List.mem_cons_of_mem _ hx1
    · intro comp b st A o st2 hcb hA hok h
      cases comp with
      | ret r =>
        have hstep : runC f (n + 1) (.ret r) st = some (r, st) := rfl
        rw [hstep] at h
        simp only [Option.some.injEq, Prod.mk.injEq] at h
        obtain ⟨rfl, rfl⟩ := h
        exact ⟨hok, fun x hx => hx⟩
      | call j k =>
        obtain ⟨hj, hk⟩ := hcb
        cases hr : recC f n j st with
        | none =>
          have hstep : runC f (n + 1) (.call j k) st = none := by
            simp [runC, hr]
          rw [hstep] at h
          cases h
        | some res =>
          obtain ⟨o1, st1⟩ := res
          have hstep : runC f (n + 1) (.call j k) st
              = runC f n (k o1) st1 := by
            simp [runC, hr]
          rw [hstep] at h
          have hAj : ∀ x ∈ A, mu j < mu x :=
            fun x hx => lt_of_lt_of_le hj (hA x hx)
          obtain ⟨hok1, hkeys1⟩ := ihrec j st A o1 st1 hok hAj hr
          obtain ⟨hok2, hkeys2⟩ := ihrun (k o1) b st1 A o st2 (hk o1) hA
            hok1 h
          exact ⟨hok2, fun x hx => hkeys2 x (hkeys1 x hx)⟩

/-- The invariant holds across any sequence of top-level invocations
of the memoized function. -/
theorem runCalls_inv [DecidableEq I] (f : I → Comp I O O) (mu : I → Nat)
    (hcalls : ∀ i, CompBelow mu (mu i) (f i)) (fuel : Nat) :
    ∀ (inputs : List I) (st st2 : St I O), StOK st [] →
    runCalls f fuel inputs st = some st2 → StOK st2 [] := by
  intro inputs
  induction inputs with
  | nil =>
    intro st st2 hok h
    simp only [runCalls, Option.some.injEq] at h
    exact h ▸ hok
  | cons i is ih =>
    intro st st2 hok h
    cases hr : recC f fuel i st with
    | none => rw [runCalls, hr] at h; cases h
    | some res =>
      obtain ⟨o1, st1⟩ := res
      rw [runCalls, hr] at h
      have hok1 := ((cache_inv f mu hcalls fuel).1 i st [] o1 st1 hok
        (by simp) hr).1
      exact ih st1 st2 hok1 h

/-- C3: on one engine instance whose wrapped function satisfies the
spec's termination obligation, the wrapped function (and hence
`EvaluationOracle.evaluate`, which it consults exactly once per
invocation) is invoked at most once per distinct input across the
instance's lifetime, however many top-level calls are made; and once
an input is a cache key, the memoized function returns the stored
output immediately, leaving the state -- including the invocation
log -- untouched. -/
theorem evaluate_at_most_once [DecidableEq I] (f : I → Comp I O O)
    (mu : I → Nat) (hcalls : ∀ i, CompBelow mu (mu i) (f i)) (fuel : Nat)
    (inputs : List I) (st2 : St I O)
    (h : runCalls f fuel inputs ⟨[], []⟩ = some st2) :
    (∀ x, st2.log.count x ≤ 1) ∧
    (∀ (n : Nat) (i : I) (o : O) (st : St I O),
      lookupC st.cache i = some o → recC f (n + 1) i st = some (o, st)) := by
  constructor
  · have hok : StOK (⟨[], []⟩ : St I O) [] := by
      constructor
      · intro x; simp
      · intro x hx; simp at hx
    exact (runCalls_inv f mu hcalls fuel inputs ⟨[], []⟩ st2 hok h).1
  · intro n i o st hl
    simp [recC, hl]

/-- Witness for `evaluate_at_most_once`: the diamond `fDiamond`, where
input `2` is reachable along two paths and the root is invoked twice,
yet each input is passed to the wrapped function exactly once. -/
theorem evaluate_at_most_once_witness :
    runCalls fDiamond 5 [0, 0] ⟨[], []⟩
      = some ⟨[(0, 15), (1, 8), (2, 7)], [0, 1, 2]⟩ ∧
    (([0, 1, 2] : List Nat).count 2 ≤ 1 ∧
      ([0, 1, 2] : List Nat).count 0 ≤ 1) ∧
    recC fDiamond 1 2 ⟨[(2, 7)], [2]⟩ = some (7, ⟨[(2, 7)], [2]⟩) := by
  have hcalls : ∀ i, CompBelow muDiamond (muDiamond i) (fDiamond i) := by
    intro i
    match i with
    | 0 => exact ⟨by decide, fun a => ⟨by decide, fun b => trivial⟩⟩
    | 1 => exact ⟨by decide, fun c => trivial⟩
    | n + 2 => exact trivial
  have h := evaluate_at_most_once fDiamond muDiamond hcalls 5 [0, 0]
    ⟨[(0, 15), (1, 8), (2, 7)], [0, 1, 2]⟩ (by decide)
  exact ⟨by decide, ⟨h.1 2, h.1 0⟩, h.2 0 2 7 ⟨[(2, 7)], [2]⟩ (by decide)⟩

/-- A cache hit returns the stored output immediately, with the state
untouched. -/
theorem recC_hit [DecidableEq I] (f : I → Comp I O O) (n : Nat) (i : I)
    (st : St I O) (o : O) (hl : lookupC st.cache i = some o) :
    recC f (n + 1) i st = some (o, st) := by
  simp [recC, hl]

/-- A successful memoized call leaves its own result in the cache
(lib.rs line 69: insert before returning). -/
theorem recC_caches [DecidableEq I] (f : I → Comp I O O) :
    ∀ (n : Nat) (i : I) (st : St I O) (o : O) (st2 : St I O),
    recC f n i st = some (o, st2) → lookupC st2.cache i = some o := by
  intro n i st o st2 h
  cases n with
  | zero => simp [recC] at h
  | succ n =>
    cases hl : lookupC st.cache i with
    | some o0 =>
      rw [recC_hit f n i st o0 hl] at h
      simp only [Option.some.injEq, Prod.mk.injEq] at h
      obtain ⟨rfl, rfl⟩ := h
      exact hl
    | none =>
      cases hr : runC f n (f i) ⟨st.cache, st.log ++ [i]⟩ with
      | none =>
        have hstep : recC f (n + 1) i st = none := by simp [recC, hl, hr]
        rw [hstep] at h
        cases h
      | some res =>
        obtain ⟨o1, st1⟩ := res
        have hstep : recC f (n + 1) i st
            = some (o1, ⟨(i, o1) :: st1.cache, st1.log⟩) := by
          simp [recC, hl, hr]
        rw [hstep] at h
        simp only [Option.some.injEq, Prod.mk.injEq] at h
        obtain ⟨rfl, rfl⟩ := h
        simp [lookupC]

/-- Memoized evaluation never overwrites an existing cache entry:
every lookup that succeeded before a run still returns the same output
afterwards. -/
theorem lookup_preserved [DecidableEq I] (f : I → Comp I O O) : ∀ n : Nat,
    (∀ (i : I) (st : St I O) (o : O) (st2 : St I O),
      recC f n i st = some (o, st2) →
      ∀ j w, lookupC st.cache j = some w → lookupC st2.cache j = some w)
    ∧ (∀ (comp : Comp I O O) (st : St I O) (o : O) (st2 : St I O),
      runC f n comp st = some (o, st2) →
      ∀ j w, lookupC st.cache j = some w → lookupC st2.cache j = some w) := by
  intro n
  induction n with
  | zero =>
    constructor
    · intro i st o st2 h
      simp [recC] at h
    · intro comp st o st2 h j w hj
      cases comp with
      | ret r =>
        have hstep : runC f 0 (.ret r) st = some (r, st) := rfl
        rw [hstep] at h
        simp only [Option.some.injEq, Prod.mk.injEq] at h
        obtain ⟨rfl, rfl⟩ := h
        exact hj
      | call j' k => simp [runC] at h
  | succ n ih =>
    obtain ⟨ihrec, ihrun⟩ := ih
    constructor
    · intro i st o st2 h j w hj
      cases hl : lookupC st.cache i with
      | some o0 =>
        rw [recC_hit f n i st o0 hl] at h
        simp only [Option.some.injEq, Prod.mk.injEq] at h
        obtain ⟨rfl, rfl⟩ := h
        exact hj
      | none =>
        cases hr : runC f n (f i) ⟨st.cache, st.log ++ [i]⟩ with
        | none =>
          have hstep : recC f (n + 1) i st = none := by simp [recC, hl, hr]
          rw [hstep] at h
          cases h
        | some res =>
          obtain ⟨o1, st1⟩ := res
          have hstep : recC f (n + 1) i st
              = some (o1, ⟨(i, o1) :: st1.cache, st1.log⟩) := by
            simp [recC, hl, hr]
          rw [hstep] at h
          simp only [Option.some.injEq, Prod.mk.injEq] at h
          obtain ⟨rfl, rfl⟩ := h
          have hij : j ≠ i := by
            intro hji
            subst hji
            rw [hl] at hj
            cases hj
          have h1 := ihrun (f i) ⟨st.cache, st.log ++ [i]⟩ o1 st1 hr j w hj
          show lookupC ((i, o1) :: st1.cache) j = some w
          rw [lookupC, if_neg hij]
          exact h1
    · intro comp st o st2 h j w hj
      cases comp with
      | ret r =>
        have hstep : runC f (n + 1) (.ret r) st = some (r, st) := rfl
        rw [hstep] at h
        simp only [Option.some.injEq, Prod.mk.injEq] at h
        obtain ⟨rfl, rfl⟩ := h
        exact hj
      | call j' k =>
        cases hr : recC f n j' st with
        | none =>
          have hstep : runC f (n + 1) (.call j' k) st = none := by
            simp [runC, hr]
          rw [hstep] at h
          cases h
        | some res =>
          obtain ⟨o1, st1⟩ := res
          have hstep : runC f (n + 1) (.call j' k) st
              = runC f n (k o1) st1 := by
            simp [runC, hr]
          rw [hstep] at h
          exact ihrun (k o1) st1 o st2 h j w (ihrec j' st o1 st1 hr j w hj)

/-- Scoring a list of successors through the cache preserves existing
cache entries. -/
theorem scoreRun_preserves [DecidableEq S] (f : S → Comp S F F)
    (fuel : Nat) : ∀ (succs : List (D × S)) (st : St S F)
    (l : List (D × F)) (st2 : St S F),
    scoreRun f fuel succs st = some (l, st2) →
    ∀ j w, lookupC st.cache j = some w → lookupC st2.cache j = some w := by
  intro succs
  induction succs with
  | nil =>
    intro st l st2 h j w hj
    simp only [scoreRun, Option.some.injEq, Prod.mk.injEq] at h
    exact h.2 ▸ hj
  | cons ds rest ih =>
    obtain ⟨d, s⟩ := ds
    intro st l st2 h j w hj
    cases hr : recC f fuel s st with
    | none =>
      rw [scoreRun] at h
      simp only [hr] at h
      cases h
    | some res =>
      obtain ⟨v, st1⟩ := res
      rw [scoreRun] at h
      simp only [hr] at h
      cases hrest : scoreRun f fuel rest st1 with
      | none => rw [hrest] at h; cases h
      | some p =>
        obtain ⟨l1, stf⟩ := p
        rw [hrest] at h
        simp only [Option.map_some', Option.some.injEq, Prod.mk.injEq] at h
        obtain ⟨rfl, rfl⟩ := h
        exact ih st1 l1 stf hrest j w
          ((lookup_preserved f fuel).1 s st v st1 hr j w hj)

/-- Re-scoring the same successors from the final state of a previous
run returns the same scores and leaves the state unchanged: every
lookup now hits the cache. -/
theorem scoreRun_idem [DecidableEq S] (f : S → Comp S F F) (fuel : Nat) :
    ∀ (succs : List (D × S)) (st : St S F) (l : List (D × F))
    (st2 : St S F),
    scoreRun f fuel succs st = some (l, st2) →
    scoreRun f fuel succs st2 = some (l, st2) := by
  intro succs
  induction succs with
  | nil =>
    intro st l st2 h
    simp only [scoreRun, Option.some.injEq, Prod.mk.injEq] at h ⊢
    exact ⟨h.1, trivial⟩
  | cons ds rest ih =>
    obtain ⟨d, s⟩ := ds
    intro st l st2 h
    cases hr : recC f fuel s st with
    | none =>
      rw [scoreRun] at h
      simp only [hr] at h
      cases h
    | some res =>
      obtain ⟨v, st1⟩ := res
      rw [scoreRun] at h
      simp only [hr] at h
      cases hrest : scoreRun f fuel rest st1 with
      | none => rw [hrest] at h; cases h
      | some p =>
        obtain ⟨l1, stf⟩ := p
        rw [hrest] at h
        simp only [Option.map_some', Option.some.injEq, Prod.mk.injEq] at h
        obtain ⟨rfl, rfl⟩ := h
        obtain ⟨m, rfl⟩ : ∃ m, fuel = m + 1 := by
          cases fuel with
          | zero => simp [recC] at hr
          | succ m => exact ⟨m, rfl⟩
        have hcached : lookupC stf.cache s = some v :=
          scoreRun_preserves f (m + 1) rest st1 l1 stf hrest s v
            (recC_caches f (m + 1) s st v st1 hr)
        rw [scoreRun]
        simp only [recC_hit f m s stf v hcached, ih st1 l1 stf hrest,
          Option.map_some']

/-- C9: two invocations of `select` on the same engine instance with
the same input state return identical results -- the second
invocation, starting from whatever cache state the first one left
behind, returns the same outcome (the same decision-score pair, the
same no-decision result, or the same panic) and leaves the cache
unchanged. -/
theorem select_deterministic [DecidableEq S] (M : Model S D) (r : ℚ)
    (fuel : Nat) (s : S) (st : St S F)
    (res : Except Unit (Option (D × F))) (st2 : St S F)
    (h : selectC M r fuel s st = some (res, st2)) :
    selectC M r fuel s st2 = some (res, st2) := by
  unfold selectC at h ⊢
  cases hsr : scoreRun (fBlend M r) fuel
      ((M.decisions s).map (fun d => (d, M.choose s d))) st with
  | none => rw [hsr] at h; cases h
  | some p =>
    obtain ⟨l, stf⟩ := p
    rw [hsr] at h
    simp only [Option.map_some', Option.some.injEq, Prod.mk.injEq] at h
    obtain ⟨rfl, rfl⟩ := h
    rw [scoreRun_idem (fBlend M r) fuel _ st l stf hsr]
    rfl

/-- Witness for `select_deterministic`: running `selectC` on `Mtie`
twice from the empty cache. -/
theorem select_deterministic_witness :
    selectC Mtie 1 3 0 ⟨[], []⟩
      = some (.ok (some (1, F.fin 1)),
          ⟨[(2, F.fin 1), (1, F.fin 1)], [1, 2]⟩) ∧
    selectC Mtie 1 3 0 ⟨[(2, F.fin 1), (1, F.fin 1)], [1, 2]⟩
      = some (.ok (some (1, F.fin 1)),
          ⟨[(2, F.fin 1), (1, F.fin 1)], [1, 2]⟩) := by
  have h1 : selectC Mtie 1 3 0 ⟨[], []⟩
      = some (.ok (some (1, F.fin 1)),
          ⟨[(2, F.fin 1), (1, F.fin 1)], [1, 2]⟩) := by decide
  exact ⟨h1, select_deterministic Mtie 1 3 0 ⟨[], []⟩ _ _ h1⟩

end Decider
